import Mathlib

/-!
Verification of the pixel-array core of `leaf_colour_sepration.py`.

Images are shallowly embedded as flat lists of RGB pixels (row-major order;
every operation under study is pixelwise or positional, so flattening is
faithful).  Channels are natural numbers.  Calls into external libraries
(`cv2.findContours`, `cv2.drawContours`, `cv2.contourArea`) are abstracted
as parameters describing the set of pixels those calls produce; everything
the repository itself computes is translated directly.
-/

/-- An RGB pixel: (red, green, blue). -/
abbrev Pixel : Type := ℕ × ℕ × ℕ

/-- The whiteness test actually used by the palette-algebra code
(`np.all(palette_array == 255, axis=2)`): every channel is exactly 255. -/
def isWhite255 (p : Pixel) : Bool :=
  decide (p.1 = 255) && decide (p.2.1 = 255) && decide (p.2.2 = 255)

/-- The background-white sentinel used by `detect_unique_colors` and
`fill_enclosed_area` (`np.all(pixels > 250, axis=1)`): every channel > 250. -/
def isBgWhite (p : Pixel) : Bool :=
  decide (250 < p.1) && decide (250 < p.2.1) && decide (250 < p.2.2)

/-- Pixel-level overlay used by `merge_selected_palettes` /
`merge_all_palettes`: `merged_array[mask] = palette_array[mask]` with
`mask = ~np.all(palette_array == 255, axis=2)`, i.e. take B's pixel when B
is not exactly (255,255,255), else keep A's pixel. -/
def mergeTwoPixel (a b : Pixel) : Pixel :=
  if isWhite255 b then a else b

/-- `merge_selected_palettes` / `merge_all_palettes` pixelwise overlay of
two equally sized palettes (flattened). -/
def mergeTwo (A B : List Pixel) : List Pixel :=
  List.zipWith mergeTwoPixel A B

/-- The left fold of `mergeTwo` performed by `merge_*_palettes` and by
`xor_selected_palettes` over the selected palette list. -/
def mergeFold (first : List Pixel) (rest : List (List Pixel)) : List Pixel :=
  rest.foldl mergeTwo first

/-- `xor_selected_palettes`: merge the selected palettes, then copy the
original image and force every pixel where the merge is non-white
(`~np.all(merged_array == 255, axis=2)`) to (255,255,255). -/
def xor_selected (orig first : List Pixel) (rest : List (List Pixel)) : List Pixel :=
  List.zipWith (fun o m => if isWhite255 m then o else ((255, 255, 255) : Pixel))
    orig (mergeFold first rest)

/-- The clamped per-channel interval test of `cv2.inRange` as set up by
`global_separation_tab1` / `local_separation_tab1`:
`max(0, c - t) <= v <= min(255, c + t)` (natural subtraction already
truncates at 0, matching `max(0, c - t)`). -/
def chanInRange (v c t : ℕ) : Bool :=
  decide (c - t ≤ v) && decide (v ≤ min 255 (c + t))

/-- A pixel matches a target colour when every channel lies in the clamped
tolerance interval (the `cv2.inRange` box test of the separation code). -/
def pixelInRange (p c : Pixel) (t : ℕ) : Bool :=
  chanInRange p.1 c.1 t && chanInRange p.2.1 c.2.1 t && chanInRange p.2.2 c.2.2 t

/-- The tolerance mask of the separation code, lifted to a list of target
colours as in the spec's `buildMask` signature (a pixel qualifies if it is
in range of any target colour; the code at the cited lines instantiates
this with the single selected colour). -/
def buildMask (img : List Pixel) (targets : List Pixel) (t : ℕ) : List Bool :=
  img.map (fun p => targets.any (fun c => pixelInRange p c t))

/-- `local_separation_tab1`:
`current_palette_array[mask > 0] = new_separated[mask > 0]` where
`new_separated` is the image under the mask — i.e. at masked positions take
the image's pixel, elsewhere keep the current palette's pixel. -/
def local_separation : List Pixel → List Pixel → List Bool → List Pixel
  | p :: ps, i :: is, m :: ms =>
      (if m then i else p) :: local_separation ps is ms
  | _, _, _ => []

theorem zipWith_getElem?_some {α β γ : Type} (f : α → β → γ) :
    ∀ (as : List α) (bs : List β) (i : ℕ) (a : α) (b : β),
      as[i]? = some a → bs[i]? = some b →
      (List.zipWith f as bs)[i]? = some (f a b)
  | [], _, _, _, _, ha, _ => by simp at ha
  | _ :: _, [], _, _, _, _, hb => by simp at hb
  | x :: as, y :: bs, 0, a, b, ha, hb => by
      simp only [List.getElem?_cons_zero, Option.some.injEq] at ha hb
      simp [List.zipWith, ha, hb]
  | x :: as, y :: bs, i + 1, a, b, ha, hb => by
      simp only [List.getElem?_cons_succ] at ha hb
      simpa [List.zipWith] using zipWith_getElem?_some f as bs i a b ha hb

/-- C1: the claim's own notion of "white" (every channel > 250, the
canonical background sentinel), written from the spec's words for
comparison with the merge code's whiteness test. -/
def isWhiteSpec (p : Pixel) : Bool :=
  decide (250 < p.1) && decide (250 < p.2.1) && decide (250 < p.2.2)

/-- C1 counterexample: at a pixel where B is (252,252,252) — white by the
claim's "every channel > 250" sentinel — the merge code still takes B's
pixel (the code tests equality with 255, not > 250), so the claim as
stated predicts A's pixel (0,0,0) and the code produces (252,252,252). -/
theorem mergeTwo_spec_white_counterexample :
    isWhiteSpec (252, 252, 252) = true ∧
    mergeTwo [((0 : ℕ), (0 : ℕ), (0 : ℕ))] [(252, 252, 252)] = [(252, 252, 252)] ∧
    [((252 : ℕ), (252 : ℕ), (252 : ℕ))] ≠ [((0 : ℕ), (0 : ℕ), (0 : ℕ))] := by
  decide

/-- C1 (amended): for equal-dimension palettes, `mergeTwo(A, B)` produces at
each pixel B's pixel when B's pixel is non-white and A's pixel otherwise,
where "white" means every channel exactly 255 (the merge code's
`palette_array == 255` test), not the > 250 sentinel. -/
theorem mergeTwo_overlay (A B : List Pixel) (i : ℕ) (a b : Pixel)
    (ha : A[i]? = some a) (hb : B[i]? = some b) :
    (isWhite255 b = false → (mergeTwo A B)[i]? = some b) ∧
    (isWhite255 b = true → (mergeTwo A B)[i]? = some a) := by
  have h := zipWith_getElem?_some mergeTwoPixel A B i a b ha hb
  constructor
  · intro hw
    rw [mergeTwo, h]
    simp [mergeTwoPixel, hw]
  · intro hw
    rw [mergeTwo, h]
    simp [mergeTwoPixel, hw]

/-- C1 witness: the amended overlay law evaluated on concrete
one-pixel palettes. -/
theorem mergeTwo_overlay_witness :
    (mergeTwo [((1 : ℕ), (2 : ℕ), (3 : ℕ))] [(9, 9, 9)])[0]? = some (9, 9, 9) ∧
    (mergeTwo [((1 : ℕ), (2 : ℕ), (3 : ℕ))] [(255, 255, 255)])[0]? = some (1, 2, 3) := by
  constructor
  · exact (mergeTwo_overlay [(1, 2, 3)] [(9, 9, 9)] 0 (1, 2, 3) (9, 9, 9) rfl rfl).1 (by decide)
  · exact (mergeTwo_overlay [(1, 2, 3)] [(255, 255, 255)] 0 (1, 2, 3) (255, 255, 255) rfl
      rfl).2 (by decide)

theorem chanInRange_mono {v c t₁ t₂ : ℕ} (h : t₁ ≤ t₂)
    (hm : chanInRange v c t₁ = true) : chanInRange v c t₂ = true := by
  simp only [chanInRange, Bool.and_eq_true, decide_eq_true_eq] at hm ⊢
  omega

theorem pixelInRange_mono {p c : Pixel} {t₁ t₂ : ℕ} (h : t₁ ≤ t₂)
    (hm : pixelInRange p c t₁ = true) : pixelInRange p c t₂ = true := by
  simp only [pixelInRange, Bool.and_eq_true] at hm ⊢
  exact ⟨⟨chanInRange_mono h hm.1.1, chanInRange_mono h hm.1.2⟩, chanInRange_mono h hm.2⟩

/-- C5: `buildMask` is monotonic in tolerance: with t₁ ≤ t₂, every pixel in
the tolerance-t₁ mask is also in the tolerance-t₂ mask (membership is the
clamped per-channel box test against any target colour). -/
theorem buildMask_mono (img targets : List Pixel) (t₁ t₂ : ℕ) (h : t₁ ≤ t₂)
    (i : ℕ) (hm : (buildMask img targets t₁)[i]? = some true) :
    (buildMask img targets t₂)[i]? = some true := by
  simp only [buildMask, List.getElem?_map] at hm ⊢
  rcases Option.map_eq_some'.1 hm with ⟨p, hp, hany⟩
  rw [hp]
  simp only [Option.map_some', Option.some.injEq]
  simp only [List.any_eq_true] at hany ⊢
  rcases hany with ⟨c, hc, hr⟩
  exact ⟨c, hc, pixelInRange_mono h hr⟩

/-- C5 witness: monotonicity applied to a concrete image, target and
tolerances 1 ≤ 3. -/
theorem buildMask_mono_witness :
    (buildMask [((10 : ℕ), (10 : ℕ), (10 : ℕ))] [(11, 11, 11)] 3)[0]? = some true := by
  exact buildMask_mono [(10, 10, 10)] [(11, 11, 11)] 1 3 (by decide) 0 (by decide)

theorem local_separation_getElem? :
    ∀ (ps is : List Pixel) (ms : List Bool) (k : ℕ) (a b : Pixel) (c : Bool),
      ps[k]? = some a → is[k]? = some b → ms[k]? = some c →
      (local_separation ps is ms)[k]? = some (if c then b else a)
  | [], _, _, _, _, _, _, ha, _, _ => by simp at ha
  | _ :: _, [], _, _, _, _, _, _, hb, _ => by simp at hb
  | _ :: _, _ :: _, [], _, _, _, _, _, _, hc => by simp at hc
  | p :: ps, i :: is, m :: ms, 0, a, b, c, ha, hb, hc => by
      simp only [List.getElem?_cons_zero, Option.some.injEq] at ha hb hc
      simp [local_separation, ha, hb, hc]
  | p :: ps, i :: is, m :: ms, k + 1, a, b, c, ha, hb, hc => by
      simp only [List.getElem?_cons_succ] at ha hb hc
      simpa [local_separation] using local_separation_getElem? ps is ms k a b c ha hb hc

theorem local_separation_idem :
    ∀ (ps is : List Pixel) (ms : List Bool),
      local_separation (local_separation ps is ms) is ms = local_separation ps is ms
  | [], is, ms => by cases is <;> cases ms <;> simp [local_separation]
  | p :: ps, [], ms => by simp [local_separation]
  | p :: ps, i :: is, [] => by simp [local_separation]
  | p :: ps, i :: is, m :: ms => by
      simp only [local_separation]
      refine congrArg₂ _ ?_ (local_separation_idem ps is ms)
      cases m <;> simp

/-- C6: local separation is additive: it overwrites only the masked pixels
of the current palette with the image's pixels, leaves every unmasked pixel
unchanged, and applying the same mask (with the same image) twice yields
the same palette as applying it once. -/
theorem local_separation_additive (ps is : List Pixel) (ms : List Bool) :
    (∀ (k : ℕ) (a b : Pixel), ps[k]? = some a → is[k]? = some b → ms[k]? = some false →
        (local_separation ps is ms)[k]? = some a) ∧
    (∀ (k : ℕ) (a b : Pixel), ps[k]? = some a → is[k]? = some b → ms[k]? = some true →
        (local_separation ps is ms)[k]? = some b) ∧
    local_separation (local_separation ps is ms) is ms = local_separation ps is ms := by
  refine ⟨?_, ?_, local_separation_idem ps is ms⟩
  · intro k a b ha hb hc
    simpa using local_separation_getElem? ps is ms k a b false ha hb hc
  · intro k a b ha hb hc
    simpa using local_separation_getElem? ps is ms k a b true ha hb hc

/-- C6 witness: the additivity law evaluated on a concrete two-pixel
palette, image and mask. -/
theorem local_separation_additive_witness :
    (local_separation [((1 : ℕ), 1, 1), (2, 2, 2)] [(7, 7, 7), (8, 8, 8)]
        [false, true])[0]? = some (1, 1, 1) ∧
    (local_separation [((1 : ℕ), 1, 1), (2, 2, 2)] [(7, 7, 7), (8, 8, 8)]
        [false, true])[1]? = some (8, 8, 8) := by
  have h := local_separation_additive [((1 : ℕ), 1, 1), (2, 2, 2)] [(7, 7, 7), (8, 8, 8)]
    [false, true]
  exact ⟨h.1 0 (1, 1, 1) (7, 7, 7) rfl rfl rfl, h.2.1 1 (2, 2, 2) (8, 8, 8) rfl rfl rfl⟩

theorem isWhite255_mergeTwoPixel (a b : Pixel) :
    isWhite255 (mergeTwoPixel a b) = (isWhite255 a && isWhite255 b) := by
  unfold mergeTwoPixel
  cases hb : isWhite255 b
  · simp [hb]
  · simp [hb]

theorem mergeTwo_length (A B : List Pixel) :
    (mergeTwo A B).length = min A.length B.length := by
  simp [mergeTwo]

theorem mergeFold_length :
    ∀ (rest : List (List Pixel)) (first : List Pixel),
      (∀ P ∈ rest, P.length = first.length) →
      (mergeFold first rest).length = first.length
  | [], first, _ => rfl
  | P :: rest, first, hlen => by
      have hP : P.length = first.length := hlen P (List.mem_cons_self P rest)
      have hmt : (mergeTwo first P).length = first.length := by
        rw [mergeTwo_length, hP, Nat.min_self]
      have hrest : ∀ Q ∈ rest, Q.length = (mergeTwo first P).length := by
        intro Q hQ
        rw [hmt]
        exact hlen Q (List.mem_cons_of_mem P hQ)
      have := mergeFold_length rest (mergeTwo first P) hrest
      simpa [mergeFold, hmt] using this

theorem mergeFold_white_iff :
    ∀ (rest : List (List Pixel)) (first : List Pixel) (i : ℕ) (m : Pixel),
      (∀ P ∈ rest, P.length = first.length) →
      (mergeFold first rest)[i]? = some m →
      (isWhite255 m = true ↔
        ((∀ p, first[i]? = some p → isWhite255 p = true) ∧
        ∀ P ∈ rest, ∀ p, P[i]? = some p → isWhite255 p = true))
  | [], first, i, m, _, hm => by
      have hm2 : first[i]? = some m := hm
      constructor
      · intro hw
        refine ⟨?_, by simp⟩
        intro p hp
        rw [hm2] at hp
        cases hp
        exact hw
      · intro h
        exact h.1 m hm2
  | P :: rest, first, i, m, hlen, hm => by
      have hP : P.length = first.length := hlen P (List.mem_cons_self P rest)
      have hmt : (mergeTwo first P).length = first.length := by
        rw [mergeTwo_length, hP, Nat.min_self]
      have hrest : ∀ Q ∈ rest, Q.length = (mergeTwo first P).length := by
        intro Q hQ
        rw [hmt]
        exact hlen Q (List.mem_cons_of_mem P hQ)
      have hm' : (mergeFold (mergeTwo first P) rest)[i]? = some m := by
        simpa [mergeFold] using hm
      have hlt : i < first.length := by
        have h1 : i < (mergeFold (mergeTwo first P) rest).length :=
          (List.getElem?_eq_some.1 hm').choose
        rw [mergeFold_length rest (mergeTwo first P) hrest, hmt] at h1
        exact h1
      obtain ⟨a, ha⟩ : ∃ a, first[i]? = some a := by
        exact ⟨first[i], List.getElem?_eq_getElem hlt⟩
      obtain ⟨p, hp⟩ : ∃ p, P[i]? = some p := by
        have : i < P.length := by omega
        exact ⟨P[i], List.getElem?_eq_getElem this⟩
      have hmtp : (mergeTwo first P)[i]? = some (mergeTwoPixel a p) :=
        zipWith_getElem?_some mergeTwoPixel first P i a p ha hp
      have ih := mergeFold_white_iff rest (mergeTwo first P) i m hrest hm'
      rw [ih]
      constructor
      · rintro ⟨h1, h2⟩
        have hw : isWhite255 (mergeTwoPixel a p) = true := h1 _ hmtp
        rw [isWhite255_mergeTwoPixel, Bool.and_eq_true] at hw
        obtain ⟨hwa, hwp⟩ := hw
        refine ⟨?_, ?_⟩
        · intro q hq
          rw [ha] at hq
          cases hq
          exact hwa
        · intro Q hQ q hq
          rcases List.mem_cons.1 hQ with rfl | hQ'
          · rw [hp] at hq
            cases hq
            exact hwp
          · exact h2 Q hQ' q hq
      · rintro ⟨h1, h2⟩
        have hwa : isWhite255 a = true := h1 a ha
        have hwp : isWhite255 p = true := h2 P (List.mem_cons_self P rest) p hp
        refine ⟨?_, ?_⟩
        · intro q hq
          rw [hmtp] at hq
          cases hq
          rw [isWhite255_mergeTwoPixel, hwa, hwp]
          rfl
        · intro Q hQ q hq
          exact h2 Q (List.mem_cons_of_mem P hQ) q hq

/-- C4 counterexample: with the original image a single (0,0,0) pixel and
one palette whose pixel is (252,252,252) — white by the claim's canonical
"> 250" sentinel, so the claim says no palette is non-white there and the
result must equal the original — the code's XOR still whites the pixel out,
because its whiteness test is equality with 255. -/
theorem xor_selected_counterexample :
    isWhiteSpec (252, 252, 252) = true ∧
    xor_selected [((0 : ℕ), 0, 0)] [(252, 252, 252)] [] = [(255, 255, 255)] ∧
    [((255 : ℕ), (255 : ℕ), (255 : ℕ))] ≠ [((0 : ℕ), (0 : ℕ), (0 : ℕ))] := by
  decide

/-- C4 (amended): for a loaded original and a non-empty list of palettes of
the original's dimensions, `xorSubtract` is white at every pixel where at
least one palette's pixel is non-white — "non-white" meaning some channel
differs from 255, the code's test — and equals the original at every other
pixel.  (The code operates on freshly allocated copies, so the original and
the input palettes are unchanged; in this pure embedding the operation is a
function of its inputs.) -/
theorem xor_selected_pixel (orig first : List Pixel) (rest : List (List Pixel))
    (h1 : first.length = orig.length) (h2 : ∀ P ∈ rest, P.length = orig.length)
    (i : ℕ) (o : Pixel) (ho : orig[i]? = some o) :
    ((∀ P ∈ first :: rest, ∀ p, P[i]? = some p → isWhite255 p = true) →
        (xor_selected orig first rest)[i]? = some o) ∧
    ((∃ P ∈ first :: rest, ∃ p, P[i]? = some p ∧ isWhite255 p = false) →
        (xor_selected orig first rest)[i]? = some (255, 255, 255)) := by
  have hrest : ∀ P ∈ rest, P.length = first.length := by
    intro P hP
    rw [h1]
    exact h2 P hP
  have hlt : i < orig.length := (List.getElem?_eq_some.1 ho).choose
  have hltm : i < (mergeFold first rest).length := by
    rw [mergeFold_length rest first hrest, h1]
    exact hlt
  obtain ⟨m, hmm⟩ : ∃ m, (mergeFold first rest)[i]? = some m :=
    ⟨(mergeFold first rest)[i], List.getElem?_eq_getElem hltm⟩
  have hres : (xor_selected orig first rest)[i]? =
      some (if isWhite255 m then o else ((255, 255, 255) : Pixel)) := by
    unfold xor_selected
    exact zipWith_getElem?_some _ orig (mergeFold first rest) i o m ho hmm
  have hiff := mergeFold_white_iff rest first i m hrest hmm
  constructor
  · intro hall
    have hw : isWhite255 m = true := by
      rw [hiff]
      refine ⟨?_, ?_⟩
      · exact fun p hp => hall first (List.mem_cons_self first rest) p hp
      · exact fun P hP p hp => hall P (List.mem_cons_of_mem first hP) p hp
    rw [hres, hw]
    rfl
  · rintro ⟨P, hP, p, hp, hnw⟩
    have hw : isWhite255 m = false := by
      rcases hb : isWhite255 m with _ | _
      · rfl
      · exfalso
        have := hiff.1 hb
        rcases List.mem_cons.1 hP with rfl | hP'
        · exact absurd (this.1 p hp) (by rw [hnw]; exact Bool.false_ne_true)
        · exact absurd (this.2 P hP' p hp) (by rw [hnw]; exact Bool.false_ne_true)
    rw [hres, hw]
    rfl

/-- C4 witness: the amended XOR law evaluated on a concrete original and two
concrete one-pixel palettes (one all-white, one carrying colour). -/
theorem xor_selected_pixel_witness :
    (xor_selected [((3 : ℕ), 4, 5)] [(255, 255, 255)] [[(255, 255, 255)]])[0]? =
      some (3, 4, 5) ∧
    (xor_selected [((3 : ℕ), 4, 5)] [(255, 255, 255)] [[(9, 9, 9)]])[0]? =
      some (255, 255, 255) := by
  constructor
  · exact (xor_selected_pixel [(3, 4, 5)] [(255, 255, 255)] [[(255, 255, 255)]] rfl
      (by intro P hP; simp at hP; subst hP; rfl) 0 (3, 4, 5) rfl).1 (by decide)
  · exact (xor_selected_pixel [(3, 4, 5)] [(255, 255, 255)] [[(9, 9, 9)]] rfl
      (by intro P hP; simp at hP; subst hP; rfl) 0 (3, 4, 5) rfl).2
      ⟨[(9, 9, 9)], by simp, (9, 9, 9), rfl, by decide⟩

/-- Editor state of `PaletteEditor`: the `history` list of snapshots, the
cursor `history_index`, and the displayed raster `palette_image` (called
`current` here).  The snapshot type is left abstract because the history
machinery never inspects pixel data. -/
structure EditorState (α : Type) where
  history : List α
  index : ℕ
  current : α
  deriving DecidableEq

/-- `self.max_history = 15` in `PaletteEditor.__init__`. -/
def max_history : ℕ := 15

/-- `PaletteEditor.__init__`: `self.history = [copy]`, `self.history_index = 0`. -/
def initEditor {α : Type} (img : α) : EditorState α :=
  ⟨[img], 0, img⟩

/-- `save_to_history`: truncate to `history[:history_index + 1]`, append the
current raster, then either pop the front entry (when the capacity 15 is
exceeded, leaving the cursor in place) or advance the cursor. -/
def save_to_history {α : Type} (s : EditorState α) : EditorState α :=
  if max_history < (s.history.take (s.index + 1) ++ [s.current]).length then
    { s with history := (s.history.take (s.index + 1) ++ [s.current]).drop 1 }
  else
    { s with history := s.history.take (s.index + 1) ++ [s.current],
             index := s.index + 1 }

/-- `undo`: when the cursor is positive, move it back one entry and display
that snapshot; otherwise do nothing. -/
def undo {α : Type} (s : EditorState α) : EditorState α :=
  if 0 < s.index then
    { s with index := s.index - 1, current := s.history.getD (s.index - 1) s.current }
  else s

/-- `redo`: when the cursor is before the last entry, move it forward one
entry and display that snapshot; otherwise do nothing. -/
def redo {α : Type} (s : EditorState α) : EditorState α :=
  if s.index + 1 < s.history.length then
    { s with index := s.index + 1, current := s.history.getD (s.index + 1) s.current }
  else s

/-- Operations of the editor's history machine: a terminal gesture (which
sets the displayed raster and then calls `save_to_history`), an undo, or a
redo. -/
inductive EOp (α : Type) where
  | gesture (img : α)
  | undoOp
  | redoOp
  deriving DecidableEq

def applyOp {α : Type} (s : EditorState α) : EOp α → EditorState α
  | .gesture img => save_to_history { s with current := img }
  | .undoOp => undo s
  | .redoOp => redo s

def runOps {α : Type} (s : EditorState α) (ops : List (EOp α)) : EditorState α :=
  ops.foldl applyOp s

theorem applyOp_gesture_spec {α : Type} (s : EditorState α) (a : α)
    (h : s.index < s.history.length) (h15 : s.history.length ≤ 15) :
    (applyOp s (EOp.gesture a)).history.length = min (s.index + 2) 15 ∧
    (applyOp s (EOp.gesture a)).index + 1 = min (s.index + 2) 15 := by
  obtain ⟨hist, i, c⟩ := s
  simp only at h h15
  show (save_to_history ⟨hist, i, a⟩).history.length = min (i + 2) 15 ∧
    (save_to_history ⟨hist, i, a⟩).index + 1 = min (i + 2) 15
  unfold save_to_history max_history
  have ht : (hist.take (i + 1)).length = i + 1 := by
    rw [List.length_take]
    omega
  split_ifs with hb
  · simp only [List.length_drop, List.length_append, ht, List.length_cons,
      List.length_nil] at *
    constructor <;> omega
  · simp only [List.length_append, ht, List.length_cons, List.length_nil] at *
    constructor <;> omega

theorem save_to_history_discard {α : Type} (s : EditorState α) :
    ∃ k, k ≤ 1 ∧ (save_to_history s).history =
      (s.history.take (s.index + 1) ++ [s.current]).drop k := by
  unfold save_to_history
  split_ifs with hb
  · exact ⟨1, Nat.le_refl 1, rfl⟩
  · exact ⟨0, Nat.zero_le 1, by simp⟩

/-- The state invariant maintained by every editor operation: the history
never exceeds the capacity and the cursor stays inside it. -/
def ValidEditor {α : Type} (s : EditorState α) : Prop :=
  s.history.length ≤ max_history ∧ s.index < s.history.length

theorem validEditor_init {α : Type} (img : α) : ValidEditor (initEditor img) := by
  constructor
  · simp [initEditor, max_history]
  · simp [initEditor]

theorem validEditor_applyOp {α : Type} (s : EditorState α) (op : EOp α)
    (hv : ValidEditor s) : ValidEditor (applyOp s op) := by
  obtain ⟨h15, hidx⟩ := hv
  unfold max_history at h15
  cases op with
  | gesture img =>
      have hs := applyOp_gesture_spec s img hidx h15
      unfold ValidEditor max_history
      omega
  | undoOp =>
      obtain ⟨hist, i, c⟩ := s
      simp only at h15 hidx
      unfold ValidEditor max_history
      show (undo ⟨hist, i, c⟩).history.length ≤ 15 ∧
        (undo ⟨hist, i, c⟩).index < (undo ⟨hist, i, c⟩).history.length
      unfold undo
      split_ifs <;> simp only <;> constructor <;> omega
  | redoOp =>
      obtain ⟨hist, i, c⟩ := s
      simp only at h15 hidx
      unfold ValidEditor max_history
      show (redo ⟨hist, i, c⟩).history.length ≤ 15 ∧
        (redo ⟨hist, i, c⟩).index < (redo ⟨hist, i, c⟩).history.length
      unfold redo
      split_ifs with hc <;> simp only at hc ⊢ <;> constructor <;> omega

theorem validEditor_runOps {α : Type} (ops : List (EOp α)) :
    ∀ (s : EditorState α), ValidEditor s → ValidEditor (runOps s ops) := by
  induction ops with
  | nil => exact fun s hv => hv
  | cons op ops ih =>
      intro s hv
      exact ih (applyOp s op) (validEditor_applyOp s op hv)

theorem runOps_gestures_spec {α : Type} :
    ∀ (imgs : List α) (s : EditorState α),
      s.index + 1 = s.history.length → s.history.length ≤ 15 →
      (runOps s (imgs.map EOp.gesture)).index + 1 =
        (runOps s (imgs.map EOp.gesture)).history.length ∧
      (runOps s (imgs.map EOp.gesture)).history.length =
        min (s.history.length + imgs.length) 15
  | [], s, hn, h15 => by
      refine ⟨hn, ?_⟩
      simp only [List.map_nil, runOps, List.foldl_nil, List.length_nil]
      omega
  | a :: imgs, s, hn, h15 => by
      have hidx : s.index < s.history.length := by omega
      have hs := applyOp_gesture_spec s a hidx h15
      have hn₁ : (applyOp s (EOp.gesture a)).index + 1 =
          (applyOp s (EOp.gesture a)).history.length := by omega
      have h15₁ : (applyOp s (EOp.gesture a)).history.length ≤ 15 := by omega
      have ih := runOps_gestures_spec imgs (applyOp s (EOp.gesture a)) hn₁ h15₁
      have hrun : runOps s ((a :: imgs).map EOp.gesture) =
          runOps (applyOp s (EOp.gesture a)) (imgs.map EOp.gesture) := by
        simp [runOps]
      rw [hrun]
      refine ⟨ih.1, ?_⟩
      rw [ih.2]
      simp only [List.length_cons]
      omega

/-- C7 counterexample op sequence: 16 gestures, then 14 undos, then one more
gesture — 17 pushes in total, yet the final history holds only 2 entries
because the last push first discards the 14 entries after the cursor. -/
def c7ops : List (EOp ℕ) :=
  (List.range 16).map (fun j => EOp.gesture (j + 1)) ++
    List.replicate 14 EOp.undoOp ++ [EOp.gesture 99]

def isGestureOp : EOp ℕ → Bool
  | .gesture _ => true
  | _ => false

set_option maxRecDepth 4000 in
/-- C7 counterexample: a sequence of operations containing 17 > 15 pushes
after which the history length is 2, not 15 — pushes that follow undos
truncate the history, so "any sequence containing N > 15 pushes" does not
keep the history at 15. -/
theorem history_length_counterexample :
    c7ops.countP isGestureOp = 17 ∧ 15 < c7ops.countP isGestureOp ∧
    (runOps (initEditor 0) c7ops).history.length = 2 ∧
    (runOps (initEditor 0) c7ops).history.length ≠ 15 := by
  decide

/-- C7 (amended): the history length never exceeds 15 and the cursor stays
below it (so undo can move at most 14 states back); after 15 or more
consecutive pushes with no intervening undo the length is exactly 15 and
the cursor sits at 14; and a push always first discards all entries after
the cursor (the new history is the truncation `history[:cursor+1]` plus the
new snapshot, minus at most the evicted front entry). -/
theorem history_bounded {α : Type} (img0 : α) (ops : List (EOp α)) :
    ((runOps (initEditor img0) ops).history.length ≤ 15 ∧
      (runOps (initEditor img0) ops).index <
        (runOps (initEditor img0) ops).history.length) ∧
    (∀ imgs : List α, 15 ≤ imgs.length →
      (runOps (runOps (initEditor img0) ops) (imgs.map EOp.gesture)).history.length = 15 ∧
      (runOps (runOps (initEditor img0) ops) (imgs.map EOp.gesture)).index = 14) ∧
    (∀ a : α, ∃ k, k ≤ 1 ∧
      (applyOp (runOps (initEditor img0) ops) (EOp.gesture a)).history =
        ((runOps (initEditor img0) ops).history.take
            ((runOps (initEditor img0) ops).index + 1) ++ [a]).drop k) := by
  have hv : ValidEditor (runOps (initEditor img0) ops) :=
    validEditor_runOps ops (initEditor img0) (validEditor_init img0)
  obtain ⟨h15, hidx⟩ := hv
  unfold max_history at h15
  set s := runOps (initEditor img0) ops with hsdef
  refine ⟨⟨h15, hidx⟩, ?_, ?_⟩
  · intro imgs hlen
    match imgs, hlen with
    | b :: rest, hlen =>
      have hs := applyOp_gesture_spec s b hidx h15
      have hn₁ : (applyOp s (EOp.gesture b)).index + 1 =
          (applyOp s (EOp.gesture b)).history.length := by omega
      have h15₁ : (applyOp s (EOp.gesture b)).history.length ≤ 15 := by omega
      have hge2 : 2 ≤ (applyOp s (EOp.gesture b)).history.length := by omega
      have hch := runOps_gestures_spec rest (applyOp s (EOp.gesture b)) hn₁ h15₁
      have hrest : 14 ≤ rest.length := by
        simpa using hlen
      have hrun : runOps s ((b :: rest).map EOp.gesture) =
          runOps (applyOp s (EOp.gesture b)) (rest.map EOp.gesture) := by
        simp [runOps]
      rw [hrun]
      constructor
      · omega
      · omega
  · intro a
    obtain ⟨k, hk, hh⟩ := save_to_history_discard { s with current := a }
    exact ⟨k, hk, hh⟩

/-- C7 witness: the amended bound applied to the empty prior op list and 15
concrete consecutive pushes, reaching length 15 with the cursor at 14. -/
theorem history_bounded_witness :
    (runOps (runOps (initEditor (0 : ℕ)) []) ((List.replicate 15 1).map
        EOp.gesture)).history.length = 15 ∧
    (runOps (runOps (initEditor (0 : ℕ)) []) ((List.replicate 15 1).map
        EOp.gesture)).index = 14 := by
  exact (history_bounded (0 : ℕ) []).2.1 (List.replicate 15 1) (by decide)

/-- C8 counterexample: the state reached from a fresh editor by one gesture
followed by one undo has its displayed raster equal to the history entry at
the cursor (cursor 0), yet undo-then-redo does not return to it: undo is a
no-op at cursor 0, and the following redo moves the cursor forward to 1. -/
theorem undo_redo_counterexample :
    runOps (initEditor (0 : ℕ)) [EOp.gesture 1, EOp.undoOp] =
      (⟨[0, 1], 0, 0⟩ : EditorState ℕ) ∧
    ((⟨[0, 1], 0, 0⟩ : EditorState ℕ).history[(0 : ℕ)]? = some 0) ∧
    redo (undo (⟨[0, 1], 0, 0⟩ : EditorState ℕ)) ≠ (⟨[0, 1], 0, 0⟩ : EditorState ℕ) := by
  decide

/-- C8 (amended): for every editor state whose cursor is positive, inside
the history, and whose displayed raster equals the history entry at the
cursor (every state produced by a gesture or by an effective undo/redo
satisfies the latter), undo followed by redo restores the state exactly. -/
theorem undo_redo_roundtrip {α : Type} (s : EditorState α) (h1 : 0 < s.index)
    (h2 : s.index < s.history.length) (h3 : s.history[s.index]? = some s.current) :
    redo (undo s) = s := by
  obtain ⟨h, i, c⟩ := s
  simp only at h1 h2 h3
  unfold undo
  rw [if_pos h1]
  simp only
  unfold redo
  simp only
  have hi : i - 1 + 1 = i := by omega
  rw [hi, if_pos h2]
  simp [List.getD_eq_getElem?_getD, h3]

/-- C8 witness: the roundtrip law applied to a concrete reached state with
cursor 1. -/
theorem undo_redo_roundtrip_witness :
    redo (undo (⟨[10, 20], 1, 20⟩ : EditorState ℕ)) =
      (⟨[10, 20], 1, 20⟩ : EditorState ℕ) := by
  exact undo_redo_roundtrip (⟨[10, 20], 1, 20⟩ : EditorState ℕ) (by decide) (by decide) rfl

/-- Rendering of the boundary image from the boundary mask, as done in
`LeafBoundaryTool.__init__` and `reset_boundaries`: an all-white canvas
with black pixels wherever the mask is positive
(`boundary_img[boundary_mask > 0] = [0, 0, 0]`). -/
def renderBoundaryImg (mask : List ℕ) : List Pixel :=
  mask.map (fun m => if 0 < m then ((0, 0, 0) : Pixel) else (255, 255, 255))

/-- `LeafBoundaryTool.extract_boundaries`, with the external
`cv2.findContours` / `cv2.drawContours` pipeline abstracted as an optional
stroke set (`none` when no contour is found, `some strokes` for the pixels
the 2px stroke of the largest contour covers): the mask starts all zero and
contour pixels, if any, are set to 255. -/
def extract_boundaries (size : ℕ) : Option (List Bool) → List ℕ
  | none => List.replicate size 0
  | some strokes =>
      List.zipWith (fun (z : ℕ) s => if s then 255 else z)
        (List.replicate size 0) strokes

/-- The live/baseline state of `LeafBoundaryTool`. -/
structure BoundaryTool where
  boundary_mask : List ℕ
  boundary_img : List Pixel
  original_boundary_mask : List ℕ
  original_boundary_img : List Pixel
  deriving DecidableEq

/-- `LeafBoundaryTool.__init__`: run boundary extraction, render the image,
and keep copies of both as the immutable baseline. -/
def mkBoundaryTool (mask : List ℕ) : BoundaryTool :=
  ⟨mask, renderBoundaryImg mask, mask, renderBoundaryImg mask⟩

/-- `LeafBoundaryTool.extract_local_region`, with the flood-fill/contour
computation abstracted as the stroke set of pixels the qualifying contours
(area > 10) are drawn on: those pixels are stroked black onto the live
image and 255 onto the live mask; the baseline pair is untouched. -/
def extract_local_region (t : BoundaryTool) (strokes : List Bool) : BoundaryTool :=
  { t with
    boundary_mask := List.zipWith (fun (m : ℕ) s => if s then 255 else m)
      t.boundary_mask strokes,
    boundary_img := List.zipWith (fun (p : Pixel) s => if s then ((0, 0, 0) : Pixel) else p)
      t.boundary_img strokes }

/-- `LeafBoundaryTool.reset_boundaries`: restore the live mask from the
baseline copy and re-render the live image from it. -/
def reset_boundaries (t : BoundaryTool) : BoundaryTool :=
  { t with
    boundary_mask := t.original_boundary_mask,
    boundary_img := renderBoundaryImg t.original_boundary_mask }

theorem extract_local_region_baseline :
    ∀ (ss : List (List Bool)) (t : BoundaryTool),
      (ss.foldl extract_local_region t).original_boundary_mask =
        t.original_boundary_mask ∧
      (ss.foldl extract_local_region t).original_boundary_img =
        t.original_boundary_img
  | [], t => ⟨rfl, rfl⟩
  | s :: ss, t => by
      have ih := extract_local_region_baseline ss (extract_local_region t s)
      simpa [extract_local_region] using ih

/-- C9: after any sequence of local extractions, the baseline pair captured
at extraction time is unchanged, and `reset` restores the live mask and
live image bit-for-bit to that baseline (which is the live pair the tool
started with); `reset` itself also leaves the baseline untouched. -/
theorem reset_boundaries_restores (m0 : List ℕ) (ss : List (List Bool)) :
    (ss.foldl extract_local_region (mkBoundaryTool m0)).original_boundary_mask = m0 ∧
    (ss.foldl extract_local_region (mkBoundaryTool m0)).original_boundary_img =
      renderBoundaryImg m0 ∧
    (reset_boundaries (ss.foldl extract_local_region
        (mkBoundaryTool m0))).boundary_mask = m0 ∧
    (reset_boundaries (ss.foldl extract_local_region
        (mkBoundaryTool m0))).boundary_img = renderBoundaryImg m0 ∧
    (reset_boundaries (ss.foldl extract_local_region
        (mkBoundaryTool m0))).boundary_mask = (mkBoundaryTool m0).boundary_mask ∧
    (reset_boundaries (ss.foldl extract_local_region
        (mkBoundaryTool m0))).boundary_img = (mkBoundaryTool m0).boundary_img ∧
    (reset_boundaries (ss.foldl extract_local_region
        (mkBoundaryTool m0))).original_boundary_mask = m0 ∧
    (reset_boundaries (ss.foldl extract_local_region
        (mkBoundaryTool m0))).original_boundary_img = renderBoundaryImg m0 := by
  have hb := extract_local_region_baseline ss (mkBoundaryTool m0)
  have hm : (ss.foldl extract_local_region (mkBoundaryTool m0)).original_boundary_mask
      = m0 := by
    rw [hb.1]
    rfl
  have hi : (ss.foldl extract_local_region (mkBoundaryTool m0)).original_boundary_img
      = renderBoundaryImg m0 := by
    rw [hb.2]
    rfl
  refine ⟨hm, hi, ?_, ?_, ?_, ?_, ?_, ?_⟩
  · simpa only [reset_boundaries] using hm
  · simp only [reset_boundaries]
    rw [hm]
  · simp only [reset_boundaries]
    rw [hm]
    rfl
  · simp only [reset_boundaries]
    rw [hm]
    rfl
  · simpa only [reset_boundaries] using hm
  · simpa only [reset_boundaries] using hi

/-- C10: when contour finding reports no contour at all, boundary
extraction still succeeds: the boundary mask is all zeros, the boundary
image is all white, and this empty pair becomes both the live state and the
baseline. -/
theorem extract_boundaries_no_contour (size : ℕ) :
    (mkBoundaryTool (extract_boundaries size none)).boundary_mask =
      List.replicate size 0 ∧
    (mkBoundaryTool (extract_boundaries size none)).boundary_img =
      List.replicate size (255, 255, 255) ∧
    (mkBoundaryTool (extract_boundaries size none)).original_boundary_mask =
      (mkBoundaryTool (extract_boundaries size none)).boundary_mask ∧
    (mkBoundaryTool (extract_boundaries size none)).original_boundary_img =
      (mkBoundaryTool (extract_boundaries size none)).boundary_img := by
  refine ⟨rfl, ?_, rfl, rfl⟩
  show renderBoundaryImg (List.replicate size 0) = List.replicate size (255, 255, 255)
  simp [renderBoundaryImg]

/-- Lexicographic comparison of RGB triples — the ascending row order that
`np.unique(colored_pixels, axis=0)` sorts the distinct colours into. -/
def pixLe (a b : Pixel) : Bool :=
  if a.1 = b.1 then
    if a.2.1 = b.2.1 then decide (a.2.2 ≤ b.2.2)
    else decide (a.2.1 < b.2.1)
  else decide (a.1 < b.1)

/-- Descending-count comparison on (colour, count) pairs — the key
`np.argsort(-counts)` orders by. -/
def countGe (a b : Pixel × ℕ) : Bool :=
  decide (b.2 ≤ a.2)

/-- Sorted insertion of one element (ties keep the inserted element after
earlier ones only when the comparison says so; inserting before the first
element it is `le`-related to makes the sort stable). -/
def sInsert {α : Type} (le : α → α → Bool) (a : α) : List α → List α
  | [] => [a]
  | b :: l => if le a b then a :: b :: l else b :: sInsert le a l

/-- Insertion sort, used as the executable model of the sorting steps of
`np.unique` and `np.argsort`.  On distinct keys (the `np.unique` use) every
comparison sort agrees, so the model is exact there.  On tied keys numpy's
default introsort leaves the order implementation-defined, while this sort
is stable; no theorem below relies on the tie order, and below numpy's
introsort cutoff (where it runs its insertion-sort base case) the stable
model coincides with the program's actual behaviour. -/
def sSort {α : Type} (le : α → α → Bool) : List α → List α
  | [] => []
  | a :: l => sInsert le a (sSort le l)

/-- The non-background pixels of a raster:
`pixels[~np.all(pixels > 250, axis=1)]`. -/
def coloredPixels (raster : List Pixel) : List Pixel :=
  raster.filter (fun p => !isBgWhite p)

/-- `PaletteEditor.detect_unique_colors`: drop background-white pixels,
take the distinct colours with their occurrence counts (`np.unique` with
`return_counts`, which yields the distinct colours in ascending
lexicographic order), and order them by descending count
(`np.argsort(-counts)`).  The program guarantees the content, the counts
and the count-descending order; the order among tied counts is
implementation-defined in numpy and the theorems below do not assert it. -/
def detect_unique_colors (raster : List Pixel) : List (Pixel × ℕ) :=
  sSort countGe ((sSort pixLe (coloredPixels raster).dedup).map
    (fun c => (c, (coloredPixels raster).count c)))

/-- C2: the distinct colours in first-seen raster order, written from the
spec's words ("ties broken by first-seen order in the raster") for
comparison with the code's `np.unique` ordering. -/
def firstSeenUniques (l : List Pixel) : List Pixel :=
  l.foldl (fun acc p => if p ∈ acc then acc else acc ++ [p]) []

/-- C2: the spec's version of `detectColors`, identical to the code's
except that the count sort starts from the distinct colours in first-seen
raster order rather than from `np.unique`'s lexicographically sorted
output. -/
def detectColorsSpecOrder (raster : List Pixel) : List (Pixel × ℕ) :=
  sSort countGe ((firstSeenUniques (coloredPixels raster)).map
    (fun c => (c, (coloredPixels raster).count c)))

theorem pixLe_refl (a : Pixel) : pixLe a a = true := by
  simp [pixLe]

theorem pixLe_total (a b : Pixel) : pixLe a b = true ∨ pixLe b a = true := by
  unfold pixLe
  split_ifs <;> simp_all <;> omega

theorem pixLe_trans (a b c : Pixel) (h1 : pixLe a b = true) (h2 : pixLe b c = true) :
    pixLe a c = true := by
  unfold pixLe at *
  split_ifs at * <;> simp_all <;> omega

theorem countGe_total (a b : Pixel × ℕ) : countGe a b = true ∨ countGe b a = true := by
  unfold countGe
  simp only [decide_eq_true_eq]
  omega

theorem countGe_trans (a b c : Pixel × ℕ) (h1 : countGe a b = true)
    (h2 : countGe b c = true) : countGe a c = true := by
  unfold countGe at *
  simp only [decide_eq_true_eq] at *
  omega

theorem sInsert_perm {α : Type} (le : α → α → Bool) (a : α) :
    ∀ l : List α, List.Perm (sInsert le a l) (a :: l)
  | [] => List.Perm.refl _
  | b :: l => by
      unfold sInsert
      split_ifs
      · exact List.Perm.refl _
      · exact ((sInsert_perm le a l).cons b).trans (List.Perm.swap a b l)

theorem sSort_perm {α : Type} (le : α → α → Bool) :
    ∀ l : List α, List.Perm (sSort le l) l
  | [] => List.Perm.refl _
  | a :: l => (sInsert_perm le a (sSort le l)).trans ((sSort_perm le l).cons a)

theorem sInsert_pairwise {α : Type} {le : α → α → Bool}
    (htot : ∀ x y, le x y = true ∨ le y x = true)
    (htr : ∀ x y z, le x y = true → le y z = true → le x z = true)
    {R : α → α → Prop} (a : α) :
    ∀ l : List α,
      l.Pairwise (fun x y => le x y = true ∧ (le y x = true → R x y)) →
      (∀ b ∈ l, R a b) →
      (sInsert le a l).Pairwise (fun x y => le x y = true ∧ (le y x = true → R x y))
  | [], _, _ => List.pairwise_singleton _ a
  | b :: l, hp, hR => by
      rw [List.pairwise_cons] at hp
      obtain ⟨hb, hl⟩ := hp
      unfold sInsert
      split_ifs with hab
      · rw [List.pairwise_cons]
        refine ⟨?_, List.pairwise_cons.2 ⟨hb, hl⟩⟩
        intro c hc
        rcases List.mem_cons.1 hc with rfl | hc'
        · exact ⟨hab, fun _ => hR c (List.mem_cons_self c l)⟩
        · exact ⟨htr a b c hab (hb c hc').1,
            fun _ => hR c (List.mem_cons_of_mem b hc')⟩
      · rw [List.pairwise_cons]
        refine ⟨?_, sInsert_pairwise htot htr a l hl
          (fun c hc => hR c (List.mem_cons_of_mem b hc))⟩
        intro c hc
        have hc' : c ∈ a :: l := (sInsert_perm le a l).mem_iff.1 hc
        rcases List.mem_cons.1 hc' with rfl | hc''
        · have hba : le b c = true := by
            rcases htot c b with h | h
            · exact absurd h hab
            · exact h
          exact ⟨hba, fun habs => absurd habs hab⟩
        · exact hb c hc''

theorem sSort_pairwise {α : Type} {le : α → α → Bool}
    (htot : ∀ x y, le x y = true ∨ le y x = true)
    (htr : ∀ x y z, le x y = true → le y z = true → le x z = true)
    {R : α → α → Prop} :
    ∀ l : List α, l.Pairwise R →
      (sSort le l).Pairwise (fun x y => le x y = true ∧ (le y x = true → R x y))
  | [], _ => List.Pairwise.nil
  | a :: l, hp => by
      rw [List.pairwise_cons] at hp
      obtain ⟨ha, hl⟩ := hp
      exact sInsert_pairwise htot htr a (sSort le l)
        (sSort_pairwise htot htr l hl)
        (fun b hb => ha b ((sSort_perm le l).mem_iff.1 hb))

theorem detect_entry (raster : List Pixel) :
    ∀ e ∈ detect_unique_colors raster,
      isBgWhite e.1 = false ∧ e.1 ∈ raster ∧
      e.2 = (coloredPixels raster).count e.1 := by
  intro e he
  unfold detect_unique_colors at he
  have he1 := (sSort_perm countGe _).mem_iff.1 he
  rcases List.mem_map.1 he1 with ⟨c, hc, rfl⟩
  have hc1 : c ∈ (coloredPixels raster).dedup := (sSort_perm pixLe _).mem_iff.1 hc
  have hc2 : c ∈ coloredPixels raster := List.mem_dedup.1 hc1
  have hc3 := List.mem_filter.1 hc2
  refine ⟨?_, hc3.1, rfl⟩
  simpa using hc3.2

theorem detect_complete (raster : List Pixel) :
    ∀ p ∈ raster, isBgWhite p = false →
      p ∈ (detect_unique_colors raster).map Prod.fst := by
  intro p hp hw
  have hc : p ∈ coloredPixels raster := List.mem_filter.2 ⟨hp, by simp [hw]⟩
  have h1 : p ∈ (coloredPixels raster).dedup := List.mem_dedup.2 hc
  have h2 : p ∈ sSort pixLe (coloredPixels raster).dedup :=
    (sSort_perm pixLe _).mem_iff.2 h1
  have h3 : (p, (coloredPixels raster).count p) ∈
      (sSort pixLe (coloredPixels raster).dedup).map
        (fun c => (c, (coloredPixels raster).count c)) :=
    List.mem_map_of_mem _ h2
  have h4 : (p, (coloredPixels raster).count p) ∈ detect_unique_colors raster :=
    (sSort_perm countGe _).mem_iff.2 h3
  exact List.mem_map.2 ⟨(p, (coloredPixels raster).count p), h4, rfl⟩

theorem detect_mem_colored (raster : List Pixel) :
    ∀ p ∈ (detect_unique_colors raster).map Prod.fst,
      isBgWhite p = false ∧ p ∈ raster := by
  intro p hp
  rcases List.mem_map.1 hp with ⟨e, he, rfl⟩
  have h := detect_entry raster e he
  exact ⟨h.1, h.2.1⟩

theorem detect_colors_nodup (raster : List Pixel) :
    ((detect_unique_colors raster).map Prod.fst).Nodup := by
  have huniq : (sSort pixLe (coloredPixels raster).dedup).Nodup :=
    (sSort_perm pixLe _).nodup_iff.2 (List.nodup_dedup _)
  have hmapeq : ((sSort pixLe (coloredPixels raster).dedup).map
      (fun c => (c, (coloredPixels raster).count c))).map Prod.fst =
      sSort pixLe (coloredPixels raster).dedup := by
    rw [List.map_map]
    exact List.map_id _
  have hperm : List.Perm ((detect_unique_colors raster).map Prod.fst)
      (sSort pixLe (coloredPixels raster).dedup) := by
    unfold detect_unique_colors
    have := (sSort_perm countGe ((sSort pixLe (coloredPixels raster).dedup).map
      (fun c => (c, (coloredPixels raster).count c)))).map Prod.fst
    rw [hmapeq] at this
    exact this
  exact hperm.nodup_iff.2 huniq

theorem detect_sorted (raster : List Pixel) :
    (detect_unique_colors raster).Pairwise (fun a b => b.2 ≤ a.2) := by
  have hd : ((coloredPixels raster).dedup).Pairwise (fun c d : Pixel => c ≠ d) :=
    List.nodup_dedup _
  have hu0 := sSort_pairwise pixLe_total pixLe_trans _ hd
  have hu : (sSort pixLe (coloredPixels raster).dedup).Pairwise
      (fun c d => pixLe c d = true ∧ c ≠ d) := by
    refine List.Pairwise.imp ?_ hu0
    rintro c d ⟨h1, h2⟩
    refine ⟨h1, ?_⟩
    intro he
    exact (h2 (he ▸ pixLe_refl c)) he
  have hw : ((sSort pixLe (coloredPixels raster).dedup).map
      (fun c => (c, (coloredPixels raster).count c))).Pairwise
      (fun a b : Pixel × ℕ => pixLe a.1 b.1 = true ∧ a.1 ≠ b.1) := by
    rw [List.pairwise_map]
    refine List.Pairwise.imp ?_ hu
    rintro c d ⟨h1, h2⟩
    exact ⟨h1, by simpa using h2⟩
  have hs := sSort_pairwise countGe_total countGe_trans _ hw
  refine List.Pairwise.imp ?_ hs
  rintro a b ⟨h1, _⟩
  simpa [countGe] using h1

/-- C2 counterexample: a raster of two distinct non-white colours with one
pixel each.  First-seen order is (10,0,0) then (5,0,0), so the claim's
tie-break predicts that order; the code sorts the distinct colours
lexicographically via `np.unique` before ranking by count, producing
(5,0,0) first.  (On inputs this small numpy's introsort runs its
insertion-sort base case, which is stable, so on this two-element input the
embedding's stable sort reproduces the program's actual output exactly.) -/
theorem detect_order_counterexample :
    detect_unique_colors [((10 : ℕ), (0 : ℕ), (0 : ℕ)), (5, 0, 0)] =
      [((5, 0, 0), 1), ((10, 0, 0), 1)] ∧
    detectColorsSpecOrder [((10 : ℕ), (0 : ℕ), (0 : ℕ)), (5, 0, 0)] =
      [((10, 0, 0), 1), ((5, 0, 0), 1)] ∧
    detect_unique_colors [((10 : ℕ), (0 : ℕ), (0 : ℕ)), (5, 0, 0)] ≠
      detectColorsSpecOrder [((10 : ℕ), (0 : ℕ), (0 : ℕ)), (5, 0, 0)] := by
  decide

/-- C2 (amended): `detectColors` excludes background-white pixels (every
channel > 250), groups by exact RGB value (each listed colour is a
non-white raster colour with its exact occurrence count, each exactly
once, and every non-white raster colour is listed), and is sorted by pixel
count descending; the order among entries with equal counts is inherited
from `np.argsort` over the lexicographically sorted `np.unique` output and
is implementation-defined (numpy's default introsort is not stable) — in
particular it is not the first-seen raster order.  Every property asserted
here holds for any tie resolution `argsort` may choose, so the embedding's
concrete tie order is not relied upon. -/
theorem detect_unique_colors_spec (raster : List Pixel) :
    (∀ e ∈ detect_unique_colors raster,
        isBgWhite e.1 = false ∧ e.1 ∈ raster ∧
        e.2 = (coloredPixels raster).count e.1) ∧
    (∀ p ∈ raster, isBgWhite p = false →
        p ∈ (detect_unique_colors raster).map Prod.fst) ∧
    ((detect_unique_colors raster).map Prod.fst).Nodup ∧
    (detect_unique_colors raster).Pairwise (fun a b => b.2 ≤ a.2) :=
  ⟨detect_entry raster, detect_complete raster, detect_colors_nodup raster,
    detect_sorted raster⟩

/-- C2 witness: the detection law applied to a concrete raster containing
two non-white pixels and one background-white pixel. -/
theorem detect_unique_colors_spec_witness :
    ((10 : ℕ), (0 : ℕ), (0 : ℕ)) ∈ (detect_unique_colors
      [((10 : ℕ), (0 : ℕ), (0 : ℕ)), (5, 0, 0), (255, 255, 255)]).map Prod.fst := by
  exact (detect_unique_colors_spec
      [((10 : ℕ), (0 : ℕ), (0 : ℕ)), (5, 0, 0), (255, 255, 255)]).2.1
    (10, 0, 0) (by decide) (by decide)

/-- The per-colour tolerance test of `apply_rgb_replacement`:
`np.all(np.abs(img_array.astype(np.int16) - source_colour) <= tolerance,
axis=2)`. -/
def matchTol (t : ℕ) (c p : Pixel) : Bool :=
  decide (((c.1 : ℤ) - p.1).natAbs ≤ t) &&
  decide (((c.2.1 : ℤ) - p.2.1).natAbs ≤ t) &&
  decide (((c.2.2 : ℤ) - p.2.2).natAbs ≤ t)

/-- One iteration of the replacement loop of `apply_rgb_replacement`: build
the tolerance mask against the current working raster, add the number of
matches to the running total, and overwrite the matches with the
replacement colour.  (When the mask is empty the code skips the write,
which leaves the raster unchanged, as here.) -/
def replaceStep (t : ℕ) (target : Pixel) (st : List Pixel × ℕ) (c : Pixel) :
    List Pixel × ℕ :=
  (st.1.map (fun p => if matchTol t c p then target else p),
   st.2 + st.1.countP (fun p => matchTol t c p))

/-- `apply_rgb_replacement`: fold the per-colour replacement over the
selected source colours in order, starting from the palette raster and a
zero change count. -/
def apply_rgb_replacement (raster sources : List Pixel) (target : Pixel)
    (t : ℕ) : List Pixel × ℕ :=
  sources.foldl (replaceStep t target) (raster, 0)

theorem matchTol_zero (c p : Pixel) : matchTol 0 c p = true ↔ p = c := by
  obtain ⟨c1, c2, c3⟩ := c
  obtain ⟨p1, p2, p3⟩ := p
  simp only [matchTol, Bool.and_eq_true, decide_eq_true_eq, Nat.le_zero,
    Int.natAbs_eq_zero, sub_eq_zero, Prod.mk.injEq]
  omega

/-- C3 counterexample: raster [(1,1,1),(1,1,1),(2,2,2)], target (2,2,2)
(one of the detected colours), tolerance 0, sources = the full
`detectColors` output [(1,1,1),(2,2,2)].  The first iteration turns the two
(1,1,1) pixels into (2,2,2); the second iteration's mask is computed on the
already-mutated raster and matches all three pixels, so `totalChanged` is
2 + 3 = 5 while the reported counts sum to 3. -/
theorem apply_rgb_counterexample :
    detect_unique_colors [((1 : ℕ), (1 : ℕ), (1 : ℕ)), (1, 1, 1), (2, 2, 2)] =
      [((1, 1, 1), 2), ((2, 2, 2), 1)] ∧
    (apply_rgb_replacement [((1 : ℕ), (1 : ℕ), (1 : ℕ)), (1, 1, 1), (2, 2, 2)]
        ((detect_unique_colors
          [((1 : ℕ), (1 : ℕ), (1 : ℕ)), (1, 1, 1), (2, 2, 2)]).map Prod.fst)
        (2, 2, 2) 0).2 = 5 ∧
    ((detect_unique_colors [((1 : ℕ), (1 : ℕ), (1 : ℕ)), (1, 1, 1), (2, 2, 2)]).map
        Prod.snd).sum = 3 ∧
    (5 : ℕ) ≠ 3 := by
  decide

theorem foldl_replaceStep_acc (t : ℕ) (target : Pixel) :
    ∀ (cs : List Pixel) (r : List Pixel) (n : ℕ),
      cs.foldl (replaceStep t target) (r, n) =
        ((cs.foldl (replaceStep t target) (r, 0)).1,
          n + (cs.foldl (replaceStep t target) (r, 0)).2)
  | [], r, n => by simp
  | c :: cs, r, n => by
      have e1 : replaceStep t target (r, n) c =
          (r.map (fun p => if matchTol t c p then target else p),
            n + r.countP (fun p => matchTol t c p)) := rfl
      have e2 : replaceStep t target (r, 0) c =
          (r.map (fun p => if matchTol t c p then target else p),
            0 + r.countP (fun p => matchTol t c p)) := rfl
      have h1 := foldl_replaceStep_acc t target cs
        (r.map (fun p => if matchTol t c p then target else p))
        (n + r.countP (fun p => matchTol t c p))
      have h2 := foldl_replaceStep_acc t target cs
        (r.map (fun p => if matchTol t c p then target else p))
        (0 + r.countP (fun p => matchTol t c p))
      simp only [List.foldl_cons, e1, e2, h1, h2, Prod.mk.injEq]
      exact ⟨trivial, by omega⟩

theorem count_map_replace (r : List Pixel) (c target b : Pixel)
    (hb1 : b ≠ target) (hb2 : b ≠ c) :
    (r.map (fun p => if matchTol 0 c p then target else p)).count b = r.count b := by
  rw [List.count_eq_countP, List.countP_map, List.count_eq_countP]
  refine List.countP_congr ?_
  intro a _
  have hbe : ((if matchTol 0 c a then target else a) == b) = (a == b) := by
    by_cases hac : a = c
    · have hm : matchTol 0 c a = true := (matchTol_zero c a).2 hac
      rw [if_pos hm]
      have h1 : (target == b) = false := by
        simp only [beq_eq_false_iff_ne, ne_eq]
        exact fun he => hb1 he.symm
      have h2 : (a == b) = false := by
        simp only [beq_eq_false_iff_ne, ne_eq, hac]
        exact fun he => hb2 he.symm
      rw [h1, h2]
    · have hm : matchTol 0 c a = false := by
        rcases hh : matchTol 0 c a with _ | _
        · rfl
        · exact absurd ((matchTol_zero c a).1 hh) hac
      rw [if_neg (by simp [hm])]
  simp only [Function.comp_apply]
  rw [hbe]

theorem countP_matchTol_zero (r : List Pixel) (c : Pixel) :
    r.countP (fun p => matchTol 0 c p) = r.count c := by
  rw [List.count_eq_countP]
  refine List.countP_congr ?_
  intro a _
  simp [matchTol_zero, beq_iff_eq]

theorem apply_replace_exact :
    ∀ (cs : List Pixel) (r : List Pixel) (target : Pixel),
      cs.Nodup → target ∉ cs →
      apply_rgb_replacement r cs target 0 =
        (r.map (fun p => if p ∈ cs then target else p),
          (cs.map (fun c => r.count c)).sum)
  | [], r, target, _, _ => by
      simp [apply_rgb_replacement]
  | c :: cs, r, target, hnd, ht => by
      have hnd' := List.nodup_cons.1 hnd
      have ht1 : target ≠ c := fun he => ht (he ▸ List.mem_cons_self c cs)
      have ht2 : target ∉ cs := fun he => ht (List.mem_cons_of_mem c he)
      have e1 : replaceStep 0 target (r, 0) c =
          (r.map (fun p => if matchTol 0 c p then target else p),
            0 + r.countP (fun p => matchTol 0 c p)) := rfl
      have hacc := foldl_replaceStep_acc 0 target cs
        (r.map (fun p => if matchTol 0 c p then target else p))
        (0 + r.countP (fun p => matchTol 0 c p))
      have hih := apply_replace_exact cs
        (r.map (fun p => if matchTol 0 c p then target else p)) target hnd'.2 ht2
      unfold apply_rgb_replacement at hih ⊢
      rw [List.foldl_cons, e1, hacc, hih]
      simp only [Prod.mk.injEq]
      refine ⟨?_, ?_⟩
      · simp only [List.map_map]
        refine List.map_congr_left ?_
        intro p _
        simp only [Function.comp_apply]
        show (if (if matchTol 0 c p then target else p) ∈ cs then target
            else (if matchTol 0 c p then target else p)) =
          if p ∈ c :: cs then target else p
        by_cases hp : p = c
        · have hm : matchTol 0 c p = true := (matchTol_zero c p).2 hp
          subst hp
          simp [hm]
        · have hm : matchTol 0 c p = false := by
            rcases hh : matchTol 0 c p with _ | _
            · rfl
            · exact absurd ((matchTol_zero c p).1 hh) hp
          simp [hm, List.mem_cons, hp]
      · simp only [List.map_cons, List.sum_cons, countP_matchTol_zero]
        have hcs : (cs.map (fun d => (r.map (fun p => if matchTol 0 c p then target
            else p)).count d)).sum = (cs.map (fun d => r.count d)).sum := by
          refine congrArg List.sum ?_
          refine List.map_congr_left ?_
          intro d hd
          exact count_map_replace r c target d
            (fun he => ht2 (he ▸ hd)) (fun he => hnd'.1 (he ▸ hd))
        rw [hcs]
        omega

theorem detect_mem_iff (raster : List Pixel) (p : Pixel) (hp : p ∈ raster) :
    p ∈ (detect_unique_colors raster).map Prod.fst ↔ isBgWhite p = false := by
  constructor
  · intro hm
    exact (detect_mem_colored raster p hm).1
  · intro hw
    exact detect_complete raster p hp hw

theorem count_coloredPixels (raster : List Pixel) (c : Pixel)
    (h : isBgWhite c = false) :
    (coloredPixels raster).count c = raster.count c := by
  unfold coloredPixels
  exact List.count_filter (by simp [h])

theorem detect_sum_counts (raster : List Pixel) :
    ((detect_unique_colors raster).map Prod.snd).sum =
      (((detect_unique_colors raster).map Prod.fst).map
        (fun c => raster.count c)).sum := by
  rw [List.map_map]
  refine congrArg List.sum (List.map_congr_left ?_)
  intro e he
  have h := detect_entry raster e he
  show e.2 = raster.count e.1
  rw [h.2.2]
  exact count_coloredPixels raster e.1 h.1

/-- Helper for the count half of C3: when the target colour differs from
every detected source colour after the first, no iteration's mask can match
a pixel rewritten by an earlier iteration, and the whole result (raster and
total) is exact. -/
theorem apply_rgb_tol0_count (raster : List Pixel) (target : Pixel)
    (h : ∀ e ∈ (detect_unique_colors raster).tail, target ≠ e.1) :
    apply_rgb_replacement raster ((detect_unique_colors raster).map Prod.fst)
        target 0 =
      (raster.map (fun p => if isBgWhite p then p else target),
        ((detect_unique_colors raster).map Prod.snd).sum) := by
  have hnd := detect_colors_nodup raster
  have hsumc := detect_sum_counts raster
  rcases hdet : detect_unique_colors raster with _ | ⟨e0, es⟩
  · have hall : ∀ p ∈ raster, isBgWhite p = true := by
      intro p hp
      rcases hb : isBgWhite p with _ | _
      · exfalso
        have hcomp := detect_complete raster p hp hb
        rw [hdet] at hcomp
        simp at hcomp
      · rfl
    have hmapid : raster.map (fun p => if isBgWhite p then p else target) = raster := by
      have h1 : raster.map (fun p => if isBgWhite p then p else target) =
          raster.map id := by
        refine List.map_congr_left ?_
        intro p hp
        rw [hall p hp]
        rfl
      rw [h1, List.map_id]
    simp only [List.map_nil]
    unfold apply_rgb_replacement
    simp only [List.foldl_nil, List.sum_nil, hmapid]
  · rw [hdet] at h hnd hsumc
    simp only [List.tail_cons] at h
    simp only [List.map_cons] at hnd hsumc
    simp only [List.sum_cons] at hsumc
    have hnd2 : (e0.1 :: es.map Prod.fst).Nodup := hnd
    have he0cs : e0.1 ∉ es.map Prod.fst := (List.nodup_cons.1 hnd2).1
    have hcsnd : (es.map Prod.fst).Nodup := (List.nodup_cons.1 hnd2).2
    have htcs : target ∉ es.map Prod.fst := by
      intro hmem
      rcases List.mem_map.1 hmem with ⟨e, he, heq⟩
      exact h e he heq.symm
    have hmem : ∀ p ∈ raster, (p ∈ e0.1 :: es.map Prod.fst ↔ isBgWhite p = false) := by
      intro p hp
      have hii := detect_mem_iff raster p hp
      rw [hdet] at hii
      simpa only [List.map_cons] using hii
    simp only [List.map_cons, List.sum_cons]
    unfold apply_rgb_replacement
    by_cases hte : target = e0.1
    · rw [List.foldl_cons]
      have e1 : replaceStep 0 target (raster, 0) e0.1 =
          (raster.map (fun p => if matchTol 0 e0.1 p then target else p),
            0 + raster.countP (fun p => matchTol 0 e0.1 p)) := rfl
      have hid : raster.map (fun p => if matchTol 0 e0.1 p then target else p) =
          raster := by
        have h1 : raster.map (fun p => if matchTol 0 e0.1 p then target else p) =
            raster.map id := by
          refine List.map_congr_left ?_
          intro p _
          by_cases hpc : p = e0.1
          · have hm : matchTol 0 e0.1 p = true := (matchTol_zero e0.1 p).2 hpc
            rw [hm]
            show target = id p
            rw [hte, hpc]
            rfl
          · have hm : matchTol 0 e0.1 p = false := by
              rcases hh : matchTol 0 e0.1 p with _ | _
              · rfl
              · exact absurd ((matchTol_zero e0.1 p).1 hh) hpc
            rw [hm]
            rfl
        rw [h1, List.map_id]
      rw [e1, hid]
      have hacc := foldl_replaceStep_acc 0 target (es.map Prod.fst) raster
        (0 + raster.countP (fun p => matchTol 0 e0.1 p))
      rw [hacc]
      have hA := apply_replace_exact (es.map Prod.fst) raster target hcsnd htcs
      unfold apply_rgb_replacement at hA
      rw [hA]
      simp only [Prod.mk.injEq]
      constructor
      · refine List.map_congr_left ?_
        intro p hp
        by_cases hw : isBgWhite p
        · have hpc : p ∉ e0.1 :: es.map Prod.fst := by
            intro hmem'
            have hf := (hmem p hp).1 hmem'
            rw [hw] at hf
            exact absurd hf (by simp)
          rw [if_neg (fun hc => hpc (List.mem_cons_of_mem _ hc)), if_pos hw]
        · have hw' : isBgWhite p = false := by simpa using hw
          have hin : p ∈ e0.1 :: es.map Prod.fst := (hmem p hp).2 hw'
          rcases List.mem_cons.1 hin with heq | hin'
          · rw [if_neg (by rw [heq]; exact he0cs), if_neg (by simp [hw'])]
            rw [heq, hte]
          · rw [if_pos hin', if_neg (by simp [hw'])]
      · rw [countP_matchTol_zero raster e0.1]
        omega
    · have hts : target ∉ e0.1 :: es.map Prod.fst := by
        intro hmem'
        rcases List.mem_cons.1 hmem' with he | hc
        · exact hte he
        · exact htcs hc
      have hA := apply_replace_exact (e0.1 :: es.map Prod.fst) raster target hnd2 hts
      unfold apply_rgb_replacement at hA
      rw [hA]
      simp only [Prod.mk.injEq]
      constructor
      · refine List.map_congr_left ?_
        intro p hp
        by_cases hw : isBgWhite p
        · have hpc : p ∉ e0.1 :: es.map Prod.fst := by
            intro hmem'
            have hf := (hmem p hp).1 hmem'
            rw [hw] at hf
            exact absurd hf (by simp)
          rw [if_neg hpc, if_pos hw]
        · have hw' : isBgWhite p = false := by simpa using hw
          have hin : p ∈ e0.1 :: es.map Prod.fst := (hmem p hp).2 hw'
          rw [if_pos hin, if_neg (by simp [hw'])]
      · simp only [List.map_cons, List.sum_cons]
        omega

theorem apply_fst_exact :
    ∀ (cs r : List Pixel) (target : Pixel) (n : ℕ),
      (cs.foldl (replaceStep 0 target) (r, n)).1 =
        r.map (fun p => if p ∈ cs then target else p)
  | [], r, target, n => by
      simp only [List.foldl_nil]
      have hmap : r.map (fun p => if p ∈ ([] : List Pixel) then target else p) =
          r.map id := by
        refine List.map_congr_left ?_
        intro p _
        rw [if_neg (List.not_mem_nil p)]
        rfl
      rw [hmap, List.map_id]
  | c :: cs, r, target, n => by
      have e1 : replaceStep 0 target (r, n) c =
          (r.map (fun p => if matchTol 0 c p then target else p),
            n + r.countP (fun p => matchTol 0 c p)) := rfl
      rw [List.foldl_cons, e1,
        apply_fst_exact cs (r.map (fun p => if matchTol 0 c p then target else p))
          target (n + r.countP (fun p => matchTol 0 c p)),
        List.map_map]
      refine List.map_congr_left ?_
      intro p _
      simp only [Function.comp_apply]
      by_cases hp : p = c
      · have hm : matchTol 0 c p = true := (matchTol_zero c p).2 hp
        subst hp
        simp [hm]
      · have hm : matchTol 0 c p = false := by
          rcases hh : matchTol 0 c p with _ | _
          · rfl
          · exact absurd ((matchTol_zero c p).1 hh) hp
        simp [hm, List.mem_cons, hp]

/-- C3 (amended): with tolerance 0 and sourceColors = the full
`detectColors` output, `apply` turns every non-white pixel of the raster
into the target colour and leaves white pixels unchanged — for every
target colour, with no proviso: a pixel rewritten to the target and
matched again by a later source colour is merely rewritten to the same
target.  Provided additionally that the target colour does not equal any
detected source colour other than possibly the first, the returned
`totalChanged` equals the sum of the pixel counts reported by
`detectColors`; without that proviso a later iteration's mask, computed on
the already-mutated raster, re-counts pixels previously rewritten to the
target. -/
theorem apply_rgb_tol0_spec (raster : List Pixel) (target : Pixel) :
    (apply_rgb_replacement raster ((detect_unique_colors raster).map Prod.fst)
        target 0).1 =
      raster.map (fun p => if isBgWhite p then p else target) ∧
    ((∀ e ∈ (detect_unique_colors raster).tail, target ≠ e.1) →
      (apply_rgb_replacement raster ((detect_unique_colors raster).map Prod.fst)
          target 0).2 =
        ((detect_unique_colors raster).map Prod.snd).sum) := by
  constructor
  · unfold apply_rgb_replacement
    rw [apply_fst_exact]
    refine List.map_congr_left ?_
    intro p hp
    by_cases hw : isBgWhite p
    · have hpc : p ∉ (detect_unique_colors raster).map Prod.fst := by
        intro hmem
        have hf := (detect_mem_iff raster p hp).1 hmem
        rw [hw] at hf
        exact absurd hf (by simp)
      rw [if_neg hpc, if_pos hw]
    · have hw' : isBgWhite p = false := by simpa using hw
      rw [if_pos ((detect_mem_iff raster p hp).2 hw'), if_neg (by simp [hw'])]
  · intro h
    rw [apply_rgb_tol0_count raster target h]

/-- C3 witness: the amended law on a concrete raster with two (1,1,1)
pixels, one (2,2,2) pixel and one white pixel.  The raster half is applied
with target (2,2,2) — a detected colour other than the first, where the
count proviso fails — and still rewrites exactly the non-white pixels; the
count half is applied with target (9,9,9), outside the detected colours,
and totals 3, the sum of the detected counts. -/
theorem apply_rgb_tol0_spec_witness :
    (apply_rgb_replacement [((1 : ℕ), (1 : ℕ), (1 : ℕ)), (1, 1, 1), (2, 2, 2),
        (255, 255, 255)]
      ((detect_unique_colors [((1 : ℕ), (1 : ℕ), (1 : ℕ)), (1, 1, 1), (2, 2, 2),
        (255, 255, 255)]).map Prod.fst) (2, 2, 2) 0).1 =
      [(2, 2, 2), (2, 2, 2), (2, 2, 2), (255, 255, 255)] ∧
    (apply_rgb_replacement [((1 : ℕ), (1 : ℕ), (1 : ℕ)), (1, 1, 1), (2, 2, 2),
        (255, 255, 255)]
      ((detect_unique_colors [((1 : ℕ), (1 : ℕ), (1 : ℕ)), (1, 1, 1), (2, 2, 2),
        (255, 255, 255)]).map Prod.fst) (9, 9, 9) 0).2 = 3 := by
  constructor
  · rw [(apply_rgb_tol0_spec
      [((1 : ℕ), (1 : ℕ), (1 : ℕ)), (1, 1, 1), (2, 2, 2), (255, 255, 255)]
      (2, 2, 2)).1]
    decide
  · rw [(apply_rgb_tol0_spec
      [((1 : ℕ), (1 : ℕ), (1 : ℕ)), (1, 1, 1), (2, 2, 2), (255, 255, 255)]
      (9, 9, 9)).2 (by decide)]
    decide
